import Mathlib

/-!
Verification of the rest-extraction utility (scripts/01_extract_rests.py).

The script is embedded shallowly: JSON values become an inductive type,
Python dicts become association lists, Python floats become rationals,
and each Python function becomes a Lean function of the same name.
Python's stable `sorted` with key `(start, end)` is modelled by an
insertion sort for the lexicographic order on pairs; since the sort key
is the whole element, the sorted result is unique, so any correct sort
models `sorted` exactly.
-/

/-- JSON values as parsed by `json.load`: null, booleans, numbers,
strings, arrays and objects (objects as association lists, since Python
dicts preserve insertion order and have unique keys). -/
inductive Json where
  | null
  | bool (b : Bool)
  | num (q : ℚ)
  | str (s : String)
  | arr (elems : List Json)
  | obj (fields : List (String × Json))

/-- Is the value a Python dict? (`isinstance(v, dict)`). -/
def isObjJson : Json → Bool
  | Json.obj _ => true
  | _ => false

/-- Is the value a dict or a list? (`isinstance(v, (dict, list))`). -/
def isContainer : Json → Bool
  | Json.obj _ => true
  | Json.arr _ => true
  | _ => false

/-- `d[k]` for a Python dict `d` when `k in d`, else `None`
(`d.get(k)`). -/
def lookup? (d : List (String × Json)) (k : String) : Option Json :=
  (d.find? (fun kv => kv.1 == k)).map (fun kv => kv.2)

/-- Python truthiness `bool(v)` on a JSON value. -/
def truthy : Json → Bool
  | Json.null => false
  | Json.bool b => b
  | Json.num q => decide (q ≠ 0)
  | Json.str s => decide (s ≠ "")
  | Json.arr xs => !xs.isEmpty
  | Json.obj fs => !fs.isEmpty

/-- Value of a digit string, most significant first. -/
def digitsVal (cs : List Char) : ℕ :=
  cs.foldl (fun a c => 10 * a + (c.toNat - 48)) 0

/-- Models Python `float()` applied to a string for plain decimal
literals: an optional sign, digits, and an optional fractional part.
Anything else fails (returns `none`). -/
def parseFloat? (s : String) : Option ℚ :=
  let cs := s.toList
  let signAndRest : ℚ × List Char :=
    match cs with
    | '-' :: rest => (-1, rest)
    | '+' :: rest => (1, rest)
    | _ => (1, cs)
  let sign := signAndRest.1
  let body := signAndRest.2
  let intPart := body.takeWhile Char.isDigit
  let afterInt := body.dropWhile Char.isDigit
  match afterInt with
  | [] =>
      if intPart.isEmpty then none
      else some (sign * (digitsVal intPart : ℚ))
  | '.' :: afterDot =>
      let fracPart := afterDot.takeWhile Char.isDigit
      let afterFrac := afterDot.dropWhile Char.isDigit
      if !afterFrac.isEmpty then none
      else if intPart.isEmpty && fracPart.isEmpty then none
      else some (sign * ((digitsVal intPart : ℚ) +
        (digitsVal fracPart : ℚ) / 10 ^ fracPart.length))
  | _ => none

/-- `to_float(x)`: coerce a value (which may be Python `None`) to a
float; `None`, containers and unparsable strings yield `None`.
`float(True) = 1.0`, `float(False) = 0.0`. -/
def to_float : Option Json → Option ℚ
  | none => none
  | some Json.null => none
  | some (Json.bool b) => some (if b then 1 else 0)
  | some (Json.num q) => some q
  | some (Json.str s) => parseFloat? s
  | some (Json.arr _) => none
  | some (Json.obj _) => none

/-- The per-key test inside `first_present`: the value stored at `k`
when `k in d and d[k] is not None`, else `None`. -/
def presentVal (d : List (String × Json)) (k : String) : Option Json :=
  match lookup? d k with
  | some Json.null => none
  | some v => some v
  | none => none

/-- `first_present(d, keys)`: the first value present (and non-`None`)
under the given keys, in order. -/
def first_present (d : List (String × Json)) (keys : List String) : Option Json :=
  keys.findSome? (presentVal d)

def REST_FLAG_KEYS : List String := ["is_rest", "isRest", "rest", "is_silence", "silence"]

def TYPE_KEYS : List String := ["type", "kind", "event_type", "eventType", "name"]

def PITCH_KEYS : List String :=
  ["pitch_midi", "pitchMidi", "pitch", "pc", "pitch_class", "pitchClass"]

def PITCH_LIST_KEYS : List String := ["pitches", "midi", "midis"]

def restWord : List Char := "rest".toList

/-- Does `cs` start with `pat`? -/
def startsWithSeq : List Char → List Char → Bool
  | [], _ => true
  | _ :: _, [] => false
  | p :: ps, c :: cs => p == c && startsWithSeq ps cs

/-- Does `cs` contain `pat` as a contiguous subsequence? -/
def containsSeq (pat : List Char) : List Char → Bool
  | [] => startsWithSeq pat []
  | c :: rest => startsWithSeq pat (c :: rest) || containsSeq pat rest

/-- `"rest" in t.lower()`. -/
def hasRestSubstring (t : String) : Bool :=
  containsSeq restWord t.toLower.toList

/-- `is_rest_event(ev)`: flag fields, then a type/kind/name string
containing "rest", then the absent-pitch heuristic. -/
def is_rest_event (ev : List (String × Json)) : Bool :=
  if REST_FLAG_KEYS.any (fun k =>
      match lookup? ev k with
      | some v => truthy v
      | none => false) then true
  else if (match first_present ev TYPE_KEYS with
      | some (Json.str t) => hasRestSubstring t
      | _ => false) then true
  else
    match first_present ev PITCH_KEYS with
    | some _ => false
    | none =>
        match first_present ev PITCH_LIST_KEYS with
        | some (Json.arr xs) => xs.isEmpty
        | _ => false

def ONSET_KEYS : List String :=
  ["offset", "off", "onset", "start", "t", "time", "offset_q", "onset_q", "start_q"]

/-- `get_onset(ev)`. -/
def get_onset (ev : List (String × Json)) : Option ℚ :=
  to_float (first_present ev ONSET_KEYS)

def DUR_Q_KEYS : List String :=
  ["dur_q", "duration_q", "dur", "duration", "ql", "quarterLength", "quarter_length"]

def DUR_8_KEYS : List String := ["dur_8", "duration_8", "eighth", "eighths"]

/-- `get_dur(ev)`: quarter-length aliases first, else eighth aliases
divided by 2. -/
def get_dur (ev : List (String × Json)) : Option ℚ :=
  match to_float (first_present ev DUR_Q_KEYS) with
  | some dur => some dur
  | none =>
      match to_float (first_present ev DUR_8_KEYS) with
      | some dur8 => some (dur8 / 2)
      | none => none

/-- `EPS = 1e-9`. -/
def EPS : ℚ := 1 / 10 ^ 9

/-- The Python sort key `lambda x: (x[0], x[1])` induces the
lexicographic order on pairs. -/
def lexLE (a b : ℚ × ℚ) : Bool :=
  decide (a.1 < b.1 ∨ (a.1 = b.1 ∧ a.2 ≤ b.2))

/-- The same order as a proposition. -/
def lexRel (a b : ℚ × ℚ) : Prop :=
  a.1 < b.1 ∨ (a.1 = b.1 ∧ a.2 ≤ b.2)

/-- Insert into a sorted list, before the first element it is `lexLE`
to. -/
def insertSorted (a : ℚ × ℚ) : List (ℚ × ℚ) → List (ℚ × ℚ)
  | [] => [a]
  | b :: l => if lexLE a b then a :: b :: l else b :: insertSorted a l

/-- `sorted(intervals, key=lambda x: (x[0], x[1]))`: since the key is
the whole element, the sorted result is unique and insertion sort
models Python's stable sort exactly. -/
def sortIntervals : List (ℚ × ℚ) → List (ℚ × ℚ)
  | [] => []
  | a :: l => insertSorted a (sortIntervals l)

/-- The fold of `coalesce_intervals`: the accumulated interval is
`(ps, pe)`; a candidate starting within `eps` of `pe` is merged
(extending the end to the max), otherwise the accumulated interval is
emitted and the candidate becomes the accumulator. The Python loop
mutates `out[-1]`, which is only ever the current accumulator, so the
two are the same computation. -/
def coalesceGo (eps : ℚ) : (ℚ × ℚ) → List (ℚ × ℚ) → List (ℚ × ℚ)
  | acc, [] => [acc]
  | acc, (s, e) :: rest =>
      if s ≤ acc.2 + eps then coalesceGo eps (acc.1, max acc.2 e) rest
      else acc :: coalesceGo eps (s, e) rest

/-- `coalesce_intervals(intervals, eps)`. -/
def coalesce_intervals (intervals : List (ℚ × ℚ)) (eps : ℚ) : List (ℚ × ℚ) :=
  match sortIntervals intervals with
  | [] => []
  | first :: rest => coalesceGo eps first rest

/-- Phase 1 of `extract_rest_intervals`: the `(onset, onset + dur)`
pair contributed by an explicit rest event, if any. Non-dict elements,
non-rest events, events with missing onset or duration, and durations
`≤ EPS` contribute nothing. -/
def explicitRest? (ev : Json) : Option (ℚ × ℚ) :=
  match ev with
  | Json.obj fields =>
      if is_rest_event fields then
        match get_onset fields, get_dur fields with
        | some onset, some dur =>
            if dur > EPS then some (onset, onset + dur) else none
        | _, _ => none
      else none
  | _ => none

/-- Phase 2 of `extract_rest_intervals`: the active span contributed by
a non-rest event, if any. Non-dict elements, rest events, events with
missing onset or duration, and negative durations contribute nothing. -/
def activeSpan? (ev : Json) : Option (ℚ × ℚ) :=
  match ev with
  | Json.obj fields =>
      if is_rest_event fields then none
      else
        match get_onset fields, get_dur fields with
        | some onset, some dur =>
            if dur < 0 then none else some (onset, onset + dur)
        | _, _ => none
  | _ => none

/-- The explicit-rest intervals collected by the first loop of
`extract_rest_intervals`. -/
def explicitIntervals (events : List Json) : List (ℚ × ℚ) :=
  events.filterMap explicitRest?

/-- The active spans collected by the second loop of
`extract_rest_intervals`. -/
def activeIntervals (events : List Json) : List (ℚ × ℚ) :=
  events.filterMap activeSpan?

/-- The gaps strictly wider than `EPS` between temporally adjacent
spans (`zip(active_spans, active_spans[1:])`). -/
def gapList (spans : List (ℚ × ℚ)) : List (ℚ × ℚ) :=
  (spans.zip spans.tail).filterMap (fun pq =>
    if pq.2.1 - pq.1.2 > EPS then some (pq.1.2, pq.2.1) else none)

/-- `extract_rest_intervals(events, require_explicit)`: the coalesced
explicit rests if any exist or `require_explicit` is set; else `[]` if
there are no active spans; else the coalesced gaps between the
coalesced active spans. -/
def extract_rest_intervals (events : List Json) (require_explicit : Bool) :
    List (ℚ × ℚ) :=
  if coalesce_intervals (explicitIntervals events) EPS ≠ [] ∨ require_explicit = true then
    coalesce_intervals (explicitIntervals events) EPS
  else if activeIntervals events = [] then []
  else coalesce_intervals (gapList (coalesce_intervals (activeIntervals events) EPS)) EPS

/-- Python `round(q, 6)`: round half to even at 6 decimal places. -/
def roundHalfEven (q : ℚ) : ℤ :=
  let f := ⌊q⌋
  let r := q - f
  if r < 1 / 2 then f
  else if 1 / 2 < r then f + 1
  else if f % 2 = 0 then f else f + 1

def pyRound6 (q : ℚ) : ℚ :=
  (roundHalfEven (q * 10 ^ 6) : ℚ) / 10 ^ 6

/-- `intervals_to_eighth_durations`. -/
def intervals_to_eighth_durations (rest_intervals_q : List (ℚ × ℚ)) : List ℚ :=
  rest_intervals_q.map (fun p => pyRound6 ((p.2 - p.1) * 2))

/-- `max(iterable, default=d)`. -/
def maxWithDefault (l : List ℚ) (d : ℚ) : ℚ :=
  match l with
  | [] => d
  | x :: xs => xs.foldl max x

/-- `validate_expected(label, got, expected)`: it only prints, so the
model returns what it prints: whether the length-mismatch warning is
emitted, and the reported maximum absolute error over the overlapping
prefix (`range(min(len(got), len(expected)))` indexes exactly the
`zipWith` pairs). -/
def validate_expected (got expected : List ℚ) : Bool × ℚ :=
  (decide (got.length ≠ expected.length),
   maxWithDefault (List.zipWith (fun a b => |a - b|) got expected) 0)

/-- `isinstance(v, list) and (len(v) == 0 or isinstance(v[0], dict))`. -/
def isEventList (xs : List Json) : Bool :=
  match xs with
  | [] => true
  | Json.obj _ :: _ => true
  | _ => false

def PRIORITY_KEYS : List String :=
  ["events", "event_list", "items", "notes", "data", "sequence", "segments"]

/-- The priority-key loop of `find_event_list`: the first priority key
whose value is a list passing the event-list shape check. -/
def keyHit (fields : List (String × Json)) : Option (List Json) :=
  PRIORITY_KEYS.findSome? (fun k =>
    match lookup? fields k with
    | some (Json.arr xs) => if isEventList xs then some xs else none
    | _ => none)

mutual

/-- `find_event_list(obj)`. -/
def find_event_list : Json → Option (List Json)
  | Json.arr xs => if isEventList xs then some xs else none
  | Json.obj fields =>
      match keyHit fields with
      | some xs => some xs
      | none => find_in_values fields
  | _ => none

/-- The recursion loop of `find_event_list`: `for v in obj.values()`,
recursing into dict or list values, returning the first result that is
not `None`. -/
def find_in_values : List (String × Json) → Option (List Json)
  | [] => none
  | (_, v) :: rest =>
      if isContainer v then
        match find_event_list v with
        | some ev => some ev
        | none => find_in_values rest
      else find_in_values rest

end

/-- The body of one step of the recursion loop: the locate result
contributed by a single value. -/
def recurseVal (v : Json) : Option (List Json) :=
  if isContainer v then find_event_list v else none

/-- An event list with one explicit rest and two active events leaving
a gap between them. -/
def eventsC1 : List Json :=
  [Json.obj [("is_rest", Json.bool true), ("onset", Json.num 0), ("dur", Json.num 1)],
   Json.obj [("onset", Json.num 5), ("dur", Json.num 1)],
   Json.obj [("onset", Json.num 10), ("dur", Json.num 1)]]

/-- An event list with no rests and active spans `(0,1)` and `(2,3)`. -/
def eventsC6 : List Json :=
  [Json.obj [("onset", Json.num 0), ("dur", Json.num 1)],
   Json.obj [("onset", Json.num 2), ("dur", Json.num 1)]]

/-- An event list with no rests and active spans `(0,1)`, `(2,2)` and
`(3,4)`: the middle span has zero duration, so both neighbouring gaps
exceed `EPS` and meet at the point `2`. -/
def eventsC6cex : List Json :=
  [Json.obj [("onset", Json.num 0), ("dur", Json.num 1)],
   Json.obj [("onset", Json.num 2), ("dur", Json.num 0)],
   Json.obj [("onset", Json.num 3), ("dur", Json.num 1)]]

/-- An event list with a single explicit rest spanning `(0,1)`. -/
def eventsC9 : List Json :=
  [Json.obj [("rest", Json.bool true), ("onset", Json.num 0), ("dur", Json.num 1)]]

/-- An event record whose first onset alias in priority order holds a
null, and whose later alias holds a number. -/
def eventC7 : List (String × Json) :=
  [("off", Json.null), ("start", Json.num 7)]

/-- Interval lists used as concrete instances below. -/
def listA : List (ℚ × ℚ) := [(0, 1), (1 + 1 / 10 ^ 10, 2)]

def listB : List (ℚ × ℚ) := [(5, 3), (10, 20)]

def listC : List (ℚ × ℚ) := [(0, -5), (0, -7)]

def listD : List (ℚ × ℚ) := [(0, 1), (2, 3)]

/-- Total covered measure claimed for a coalesced list: the sum of
`end - start` over its intervals. -/
def sumLengths (l : List (ℚ × ℚ)) : ℚ :=
  (l.map (fun p => p.2 - p.1)).sum

/-- The union of the closed real intervals `[start, end]` of a list of
rational intervals: the set whose Lebesgue measure the spec calls the
"union measure of the input". -/
def iccUnion : List (ℚ × ℚ) → Set ℝ
  | [] => ∅
  | p :: rest => Set.Icc (p.1 : ℝ) (p.2 : ℝ) ∪ iccUnion rest

/-- Well-formedness of every interval in a list: `start ≤ end`. -/
def wfIntervals (l : List (ℚ × ℚ)) : Prop :=
  ∀ p ∈ l, p.1 ≤ p.2

/-- No two intervals of the list are separated by a positive gap of at
most `eps`: every start is at most the other interval's end, or beyond
it by more than `eps`. -/
def sepIntervals (eps : ℚ) (l : List (ℚ × ℚ)) : Prop :=
  ∀ p ∈ l, ∀ q ∈ l, q.1 ≤ p.2 ∨ p.2 + eps < q.1

/-- A mapping with no priority key whose second value recursively
contains an event list. -/
def fieldsC4 : List (String × Json) :=
  [("alpha", Json.num 1), ("beta", Json.obj [("events", Json.arr [Json.obj []])])]

/-- Duration sequences of different lengths used as a concrete
validator instance. -/
def gotW : List ℚ := [1, 2]

def expW : List ℚ := [1, 3, 5]

theorem filterMap_filter_isObj (f : Json → Option (ℚ × ℚ))
    (hf : ∀ x, isObjJson x = false → f x = none) (l : List Json) :
    (l.filter isObjJson).filterMap f = l.filterMap f := by
  induction l with
  | nil => rfl
  | cons a l ih =>
      cases ha : isObjJson a with
      | false => simp [List.filter_cons, ha, hf a ha, List.filterMap_cons, ih]
      | true => simp [List.filter_cons, ha, List.filterMap_cons, ih]

theorem insertSorted_ne_nil (a : ℚ × ℚ) (l : List (ℚ × ℚ)) :
    insertSorted a l ≠ [] := by
  cases l with
  | nil => simp [insertSorted]
  | cons b m =>
      simp only [insertSorted]
      split <;> simp

theorem coalesceGo_ne_nil (eps : ℚ) (l : List (ℚ × ℚ)) (acc : ℚ × ℚ) :
    coalesceGo eps acc l ≠ [] := by
  induction l generalizing acc with
  | nil => simp [coalesceGo]
  | cons p rest ih =>
      obtain ⟨s, e⟩ := p
      simp only [coalesceGo]
      split
      · exact ih _
      · simp

theorem coalesce_ne_nil {l : List (ℚ × ℚ)} (h : l ≠ []) (eps : ℚ) :
    coalesce_intervals l eps ≠ [] := by
  unfold coalesce_intervals
  cases hs : sortIntervals l with
  | nil =>
      cases l with
      | nil => exact absurd rfl h
      | cons a m => exact absurd hs (by simp only [sortIntervals]; exact insertSorted_ne_nil a _)
  | cons a m => exact coalesceGo_ne_nil eps m a

/-- C10: `extract_rest_intervals` silently skips every non-mapping
element in both the explicit-rest and active-span phases: the result on
any event list equals the result on the sublist of mapping elements. -/
theorem extract_skips_nonmapping (events : List Json) (b : Bool) :
    extract_rest_intervals events b =
      extract_rest_intervals (events.filter isObjJson) b := by
  have h1 : explicitIntervals (events.filter isObjJson) = explicitIntervals events := by
    unfold explicitIntervals
    exact filterMap_filter_isObj explicitRest?
      (by
        intro x hx
        cases x with
        | obj fields => simp [isObjJson] at hx
        | null => rfl
        | bool b => rfl
        | num q => rfl
        | str s => rfl
        | arr xs => rfl) events
  have h2 : activeIntervals (events.filter isObjJson) = activeIntervals events := by
    unfold activeIntervals
    exact filterMap_filter_isObj activeSpan?
      (by
        intro x hx
        cases x with
        | obj fields => simp [isObjJson] at hx
        | null => rfl
        | bool b => rfl
        | num q => rfl
        | str s => rfl
        | arr xs => rfl) events
  simp only [extract_rest_intervals, h1, h2]

/-- C1: if some event is classified as an explicit rest with
extractable onset and duration exceeding `EPS`, the extractor returns
exactly the coalesced explicit rest intervals — the same result as with
`require_explicit` set — and gap inference is never used, whatever gaps
exist between active events. -/
theorem explicit_rests_take_precedence (events : List Json)
    (h : ∃ ev ∈ events, (explicitRest? ev).isSome = true) :
    extract_rest_intervals events false =
      coalesce_intervals (explicitIntervals events) EPS ∧
    extract_rest_intervals events false = extract_rest_intervals events true := by
  have hne : explicitIntervals events ≠ [] := by
    obtain ⟨ev, hev, hsome⟩ := h
    intro hnil
    unfold explicitIntervals at hnil
    rw [List.filterMap_eq_nil_iff] at hnil
    rw [hnil ev hev] at hsome
    simp at hsome
  have hcne : coalesce_intervals (explicitIntervals events) EPS ≠ [] :=
    coalesce_ne_nil hne EPS
  constructor
  · simp only [extract_rest_intervals]
    rw [if_pos (Or.inl hcne)]
  · simp only [extract_rest_intervals]
    rw [if_pos (Or.inl hcne), if_pos (Or.inr (by trivial))]

theorem explicit_rests_take_precedence_witness :
    (explicitRest? (Json.obj [("is_rest", Json.bool true), ("onset", Json.num 0),
      ("dur", Json.num 1)])).isSome = true ∧
    extract_rest_intervals eventsC1 false =
      coalesce_intervals (explicitIntervals eventsC1) EPS ∧
    extract_rest_intervals eventsC1 false = extract_rest_intervals eventsC1 true :=
  ⟨by with_unfolding_all decide,
   (explicit_rests_take_precedence eventsC1 (by with_unfolding_all decide)).1,
   (explicit_rests_take_precedence eventsC1 (by with_unfolding_all decide)).2⟩

/-- C6 (amended): with no explicit rest interval and
`require_explicit = false`, the result is exactly the coalescing of the
gaps wider than `EPS` between adjacent coalesced active spans; in
particular active spans `(0,1)` and `(2,3)` yield exactly `[(1,2)]`,
which converts to the eighth-unit duration sequence `[2]`. -/
theorem inferred_rests_are_coalesced_gaps :
    (∀ events : List Json, explicitIntervals events = [] →
      extract_rest_intervals events false =
        coalesce_intervals (gapList (coalesce_intervals (activeIntervals events) EPS)) EPS) ∧
    extract_rest_intervals eventsC6 false = [(1, 2)] ∧
    intervals_to_eighth_durations (extract_rest_intervals eventsC6 false) = [2] := by
  refine ⟨?_, ?_, ?_⟩
  · intro events hexp
    have hco : coalesce_intervals (explicitIntervals events) EPS = [] := by
      rw [hexp]; rfl
    simp only [extract_rest_intervals, hco]
    rw [if_neg (by simp)]
    by_cases hact : activeIntervals events = []
    · rw [if_pos hact, hact]
      rfl
    · rw [if_neg hact]
  · with_unfolding_all decide
  · with_unfolding_all decide

/-- C6 counterexample to the claim as stated: when a coalesced active
span is a single point, the two adjacent gaps both exceed `EPS` yet
share an endpoint, so the final coalescing merges them: the result is
not the list of per-adjacent-pair gaps. -/
theorem inferred_gaps_merge_cex :
    explicitIntervals eventsC6cex = [] ∧
    gapList (coalesce_intervals (activeIntervals eventsC6cex) EPS) = [(1, 2), (2, 3)] ∧
    extract_rest_intervals eventsC6cex false = [(1, 3)] ∧
    extract_rest_intervals eventsC6cex false ≠
      gapList (coalesce_intervals (activeIntervals eventsC6cex) EPS) := by
  refine ⟨?_, ?_, ?_, ?_⟩ <;> with_unfolding_all decide

theorem insertSorted_perm (a : ℚ × ℚ) (l : List (ℚ × ℚ)) :
    (insertSorted a l).Perm (a :: l) := by
  induction l with
  | nil => exact List.Perm.refl _
  | cons b m ih =>
      simp only [insertSorted]
      split
      · exact List.Perm.refl _
      · exact (ih.cons b).trans (List.Perm.swap a b m)

theorem sortIntervals_perm (l : List (ℚ × ℚ)) : (sortIntervals l).Perm l := by
  induction l with
  | nil => exact List.Perm.refl _
  | cons a m ih => exact (insertSorted_perm a (sortIntervals m)).trans (ih.cons a)

theorem wf_coalesceGo (eps : ℚ) (l : List (ℚ × ℚ)) :
    ∀ acc : ℚ × ℚ, acc.1 ≤ acc.2 → (∀ p ∈ l, p.1 ≤ p.2) →
      ∀ q ∈ coalesceGo eps acc l, q.1 ≤ q.2 := by
  induction l with
  | nil =>
      intro acc hacc _ q hq
      simp only [coalesceGo, List.mem_singleton] at hq
      exact hq ▸ hacc
  | cons p rest ih =>
      intro acc hacc hl q hq
      obtain ⟨s, e⟩ := p
      simp only [coalesceGo] at hq
      split at hq
      · exact ih (acc.1, max acc.2 e) (le_trans hacc (le_max_left _ _))
          (fun r hr => hl r (List.mem_cons_of_mem _ hr)) q hq
      · rcases List.mem_cons.mp hq with rfl | hq'
        · exact hacc
        · exact ih (s, e) (hl (s, e) (List.mem_cons_self _ _))
            (fun r hr => hl r (List.mem_cons_of_mem _ hr)) q hq'

theorem wf_coalesce {l : List (ℚ × ℚ)} (eps : ℚ) (hl : ∀ p ∈ l, p.1 ≤ p.2) :
    ∀ q ∈ coalesce_intervals l eps, q.1 ≤ q.2 := by
  intro q hq
  unfold coalesce_intervals at hq
  cases hs : sortIntervals l with
  | nil => rw [hs] at hq; simp at hq
  | cons a m =>
      rw [hs] at hq
      have hperm := sortIntervals_perm l
      rw [hs] at hperm
      have hmem : ∀ p ∈ a :: m, p.1 ≤ p.2 := fun p hp => hl p (hperm.mem_iff.mp hp)
      exact wf_coalesceGo eps m a (hmem a (List.mem_cons_self _ _))
        (fun r hr => hmem r (List.mem_cons_of_mem _ hr)) q hq

theorem wf_explicitIntervals (events : List Json) :
    ∀ q ∈ explicitIntervals events, q.1 ≤ q.2 := by
  intro q hq
  unfold explicitIntervals at hq
  obtain ⟨ev, _, hev⟩ := List.mem_filterMap.mp hq
  cases ev with
  | obj fields =>
      simp only [explicitRest?] at hev
      split at hev
      · split at hev
        · split at hev
          · rcases Option.some.inj hev with rfl
            have hpos : (0 : ℚ) < EPS := by norm_num [EPS]
            dsimp only
            linarith
          · exact absurd hev (by simp)
        · exact absurd hev (by simp)
      · exact absurd hev (by simp)
  | null => exact absurd hev (by simp [explicitRest?])
  | bool b => exact absurd hev (by simp [explicitRest?])
  | num n => exact absurd hev (by simp [explicitRest?])
  | str s => exact absurd hev (by simp [explicitRest?])
  | arr xs => exact absurd hev (by simp [explicitRest?])

theorem wf_activeIntervals (events : List Json) :
    ∀ q ∈ activeIntervals events, q.1 ≤ q.2 := by
  intro q hq
  unfold activeIntervals at hq
  obtain ⟨ev, _, hev⟩ := List.mem_filterMap.mp hq
  cases ev with
  | obj fields =>
      simp only [activeSpan?] at hev
      split at hev
      · exact absurd hev (by simp)
      · split at hev
        · split at hev
          · exact absurd hev (by simp)
          · rcases Option.some.inj hev with rfl
            dsimp only
            linarith
        · exact absurd hev (by simp)
  | null => exact absurd hev (by simp [activeSpan?])
  | bool b => exact absurd hev (by simp [activeSpan?])
  | num n => exact absurd hev (by simp [activeSpan?])
  | str s => exact absurd hev (by simp [activeSpan?])
  | arr xs => exact absurd hev (by simp [activeSpan?])

theorem wf_gapList (spans : List (ℚ × ℚ)) :
    ∀ q ∈ gapList spans, q.1 ≤ q.2 := by
  intro q hq
  unfold gapList at hq
  obtain ⟨pq, _, hpq⟩ := List.mem_filterMap.mp hq
  split at hpq
  · rcases Option.some.inj hpq with rfl
    have hEPS : (0 : ℚ) < EPS := by norm_num [EPS]
    dsimp only
    linarith
  · exact absurd hpq (by simp)

/-- C9: every interval returned by `extract_rest_intervals`, for any
event list and any `require_explicit` flag, satisfies `start ≤ end`. -/
theorem extract_intervals_start_le_end (events : List Json) (b : Bool) :
    ∀ p ∈ extract_rest_intervals events b, p.1 ≤ p.2 := by
  intro p hp
  unfold extract_rest_intervals at hp
  split at hp
  · exact wf_coalesce EPS (wf_explicitIntervals events) p hp
  · split at hp
    · simp at hp
    · exact wf_coalesce EPS
        (wf_gapList (coalesce_intervals (activeIntervals events) EPS)) p hp

theorem extract_intervals_start_le_end_witness :
    ((0 : ℚ), (1 : ℚ)) ∈ extract_rest_intervals eventsC9 false ∧
    ((0 : ℚ), (1 : ℚ)).1 ≤ ((0 : ℚ), (1 : ℚ)).2 :=
  ⟨by with_unfolding_all decide,
   extract_intervals_start_le_end eventsC9 false _ (by with_unfolding_all decide)⟩

theorem inferred_rests_are_coalesced_gaps_witness :
    explicitIntervals eventsC6 = [] ∧
    extract_rest_intervals eventsC6 false =
      coalesce_intervals (gapList (coalesce_intervals (activeIntervals eventsC6) EPS)) EPS :=
  ⟨by with_unfolding_all decide,
   inferred_rests_are_coalesced_gaps.1 eventsC6 (by with_unfolding_all decide)⟩

/-- C7: `get_onset` coerces the first present (non-null) value among
the onset aliases, in priority order, and is absent exactly when no
alias holds a present value or the coercion of that first present value
fails. -/
theorem get_onset_first_present_alias (ev : List (String × Json)) :
    (get_onset ev = none ↔
      (∀ k ∈ ONSET_KEYS, presentVal ev k = none) ∨
      ∃ v, first_present ev ONSET_KEYS = some v ∧ to_float (some v) = none) ∧
    (∀ ks1 k ks2 v, ONSET_KEYS = ks1 ++ k :: ks2 →
      (∀ kp ∈ ks1, presentVal ev kp = none) →
      presentVal ev k = some v →
      get_onset ev = to_float (some v)) := by
  constructor
  · rw [show get_onset ev = to_float (first_present ev ONSET_KEYS) from rfl]
    cases hfp : first_present ev ONSET_KEYS with
    | none =>
        constructor
        · intro _
          exact Or.inl (List.findSome?_eq_none_iff.mp hfp)
        · intro _
          rfl
    | some v =>
        constructor
        · intro htf
          exact Or.inr ⟨v, rfl, htf⟩
        · rintro (hall | ⟨w, hw, htfw⟩)
          · have hn : first_present ev ONSET_KEYS = none :=
              List.findSome?_eq_none_iff.mpr hall
            rw [hfp] at hn
            cases hn
          · rcases Option.some.inj hw with rfl
            exact htfw
  · intro ks1 k ks2 v hsplit hpre hk
    unfold get_onset first_present
    rw [hsplit, List.findSome?_append, List.findSome?_eq_none_iff.mpr hpre]
    simp [List.findSome?_cons, hk]

theorem get_onset_first_present_alias_witness :
    presentVal eventC7 ("offset") = none ∧
    presentVal eventC7 ("off") = none ∧
    presentVal eventC7 ("onset") = none ∧
    presentVal eventC7 ("start") = some (Json.num 7) ∧
    get_onset eventC7 = some 7 := by
  have hpre : ∀ kp ∈ (["offset", "off", "onset"] : List String),
      presentVal eventC7 kp = none := by
    intro kp hkp
    rcases List.mem_cons.mp hkp with rfl | hkp
    · rfl
    rcases List.mem_cons.mp hkp with rfl | hkp
    · rfl
    rcases List.mem_cons.mp hkp with rfl | hkp
    · rfl
    exact absurd hkp (List.not_mem_nil _)
  refine ⟨rfl, rfl, rfl, rfl, ?_⟩
  have h := (get_onset_first_present_alias eventC7).2
    ["offset", "off", "onset"] ("start")
    ["t", "time", "offset_q", "onset_q", "start_q"] (Json.num 7) rfl hpre rfl
  exact h.trans rfl

theorem le_foldl_max (l : List ℚ) :
    ∀ a : ℚ, a ≤ l.foldl max a ∧ ∀ x ∈ l, x ≤ l.foldl max a := by
  induction l with
  | nil => intro a; exact ⟨le_refl a, by simp⟩
  | cons b m ih =>
      intro a
      simp only [List.foldl_cons]
      obtain ⟨h1, h2⟩ := ih (max a b)
      refine ⟨le_trans (le_max_left a b) h1, ?_⟩
      intro x hx
      rcases List.mem_cons.mp hx with rfl | hx
      · exact le_trans (le_max_right a x) h1
      · exact h2 x hx

theorem foldl_max_mem (l : List ℚ) :
    ∀ a : ℚ, l.foldl max a = a ∨ l.foldl max a ∈ l := by
  induction l with
  | nil => intro a; exact Or.inl rfl
  | cons b m ih =>
      intro a
      simp only [List.foldl_cons]
      rcases ih (max a b) with h | h
      · rw [h]
        rcases max_choice a b with hab | hab
        · exact Or.inl hab
        · rw [hab]
          exact Or.inr (List.mem_cons_self _ _)
      · exact Or.inr (List.mem_cons_of_mem _ h)

theorem mem_le_maxWithDefault {l : List ℚ} {d : ℚ} :
    ∀ x ∈ l, x ≤ maxWithDefault l d := by
  cases l with
  | nil => simp
  | cons b m =>
      intro x hx
      rcases List.mem_cons.mp hx with rfl | hx
      · exact (le_foldl_max m x).1
      · exact (le_foldl_max m b).2 x hx

theorem maxWithDefault_eq_or_mem (l : List ℚ) (d : ℚ) :
    maxWithDefault l d = d ∨ maxWithDefault l d ∈ l := by
  cases l with
  | nil => exact Or.inl rfl
  | cons b m =>
      rcases foldl_max_mem m b with h | h
      · refine Or.inr ?_
        rw [maxWithDefault, h]
        exact List.mem_cons_self _ _
      · refine Or.inr ?_
        rw [maxWithDefault]
        exact List.mem_cons_of_mem _ h

/-- C8: the validator never fails: the warning flag is set exactly when
the lengths differ; the reported value bounds every absolute difference
over the overlapping prefix of length `min`, and is either `0` or one of
those differences; it is `0` when either sequence is empty; and the
reported value does not depend on the warning. -/
theorem validate_expected_diagnostic (got expected : List ℚ) :
    ((validate_expected got expected).1 = true ↔ got.length ≠ expected.length) ∧
    (∀ i, i < min got.length expected.length →
      |got.getD i 0 - expected.getD i 0| ≤ (validate_expected got expected).2) ∧
    ((validate_expected got expected).2 = 0 ∨
      ∃ i, i < min got.length expected.length ∧
        (validate_expected got expected).2 = |got.getD i 0 - expected.getD i 0|) ∧
    ((got = [] ∨ expected = []) → (validate_expected got expected).2 = 0) := by
  have hlen : (List.zipWith (fun a b => |a - b|) got expected).length =
      min got.length expected.length := by
    rw [List.length_zipWith]
  refine ⟨by simp [validate_expected], ?_, ?_, ?_⟩
  · intro i hi
    have hi' : i < (List.zipWith (fun a b => |a - b|) got expected).length := by
      rw [hlen]; exact hi
    have hg : i < got.length := lt_of_lt_of_le hi (min_le_left _ _)
    have he : i < expected.length := lt_of_lt_of_le hi (min_le_right _ _)
    have hx := mem_le_maxWithDefault (d := 0) _ (List.getElem_mem hi')
    rw [List.getElem_zipWith] at hx
    rw [List.getD_eq_getElem got 0 hg, List.getD_eq_getElem expected 0 he]
    exact hx
  · rcases maxWithDefault_eq_or_mem (List.zipWith (fun a b => |a - b|) got expected) 0
      with h | h
    · exact Or.inl h
    · right
      obtain ⟨i, hi, hieq⟩ := List.mem_iff_getElem.mp h
      refine ⟨i, by rw [← hlen]; exact hi, ?_⟩
      show maxWithDefault (List.zipWith (fun a b => |a - b|) got expected) 0 =
        |got.getD i 0 - expected.getD i 0|
      rw [← hieq, List.getElem_zipWith]
      have hg : i < got.length := by
        rw [hlen] at hi; exact lt_of_lt_of_le hi (min_le_left _ _)
      have he : i < expected.length := by
        rw [hlen] at hi; exact lt_of_lt_of_le hi (min_le_right _ _)
      rw [List.getD_eq_getElem got 0 hg, List.getD_eq_getElem expected 0 he]
  · rintro (rfl | rfl) <;> simp [validate_expected, maxWithDefault]

theorem validate_expected_diagnostic_witness :
    (validate_expected gotW expW).1 = true ∧
    |gotW.getD 1 0 - expW.getD 1 0| ≤ (validate_expected gotW expW).2 :=
  ⟨(validate_expected_diagnostic gotW expW).1.mpr (by decide),
   (validate_expected_diagnostic gotW expW).2.1 1 (by decide)⟩

theorem fiv_cons (kv : String × Json) (rest : List (String × Json)) :
    find_in_values (kv :: rest) =
      match recurseVal kv.2 with
      | some ev => some ev
      | none => find_in_values rest := by
  obtain ⟨k, v⟩ := kv
  simp only [find_in_values, recurseVal]
  by_cases hc : isContainer v
  · rw [if_pos hc, if_pos hc]
    try rfl
  · rw [if_neg hc, if_neg hc]
    try rfl

theorem fiv_findSome (l : List (String × Json)) :
    find_in_values l = l.findSome? (fun kv => recurseVal kv.2) := by
  induction l with
  | nil => rfl
  | cons kv rest ih =>
      rw [fiv_cons, List.findSome?_cons]
      cases hr : recurseVal kv.2 <;> simp [hr, ih]

theorem keyHit_isEventList {fields : List (String × Json)} {xs : List Json}
    (h : keyHit fields = some xs) : isEventList xs = true := by
  obtain ⟨k, hk, hfk⟩ := List.exists_of_findSome?_eq_some h
  cases hl : lookup? fields k with
  | none => rw [hl] at hfk; cases hfk
  | some v =>
      rw [hl] at hfk
      cases v with
      | arr ys =>
          have hfk2 : (if isEventList ys = true then some ys else none) = some xs := hfk
          split at hfk2
          · rcases Option.some.inj hfk2 with rfl
            assumption
          · cases hfk2
      | null => exact Option.noConfusion hfk
      | bool b => exact Option.noConfusion hfk
      | num q => exact Option.noConfusion hfk
      | str s => exact Option.noConfusion hfk
      | obj f2 => exact Option.noConfusion hfk

theorem fel_isEventList :
    ∀ j : Json, ∀ xs : List Json, find_event_list j = some xs → isEventList xs = true := by
  apply find_event_list.induct
    (fun j => ∀ xs, find_event_list j = some xs → isEventList xs = true)
    (fun l => ∀ xs, find_in_values l = some xs → isEventList xs = true)
  · intro ys hys xs hfel
    simp only [find_event_list, hys, if_true, Option.some.injEq] at hfel
    rw [← hfel]
    exact hys
  · intro ys hys xs hfel
    simp only [find_event_list, hys, if_false] at hfel
    exact Option.noConfusion hfel
  · intro fields ys hkey xs hfel
    simp only [find_event_list, hkey, Option.some.injEq] at hfel
    rw [← hfel]
    exact keyHit_isEventList hkey
  · intro fields hkey ih xs hfel
    simp only [find_event_list, hkey] at hfel
    exact ih xs hfel
  · intro t harr hobj xs hfel
    cases t with
    | arr ys => exact absurd rfl (harr ys)
    | obj f => exact absurd rfl (hobj f)
    | null => simp [find_event_list] at hfel
    | bool b => simp [find_event_list] at hfel
    | num q => simp [find_event_list] at hfel
    | str s => simp [find_event_list] at hfel
  · intro xs hfiv
    simp [find_in_values] at hfiv
  · intro fst v rest hc ys hfelv ih xs hfiv
    rw [fiv_cons] at hfiv
    simp only [recurseVal, hc, if_true, hfelv] at hfiv
    rcases Option.some.inj hfiv with rfl
    exact ih ys hfelv
  · intro fst v rest hc hfelv ih1 ih2 xs hfiv
    rw [fiv_cons] at hfiv
    simp only [recurseVal, hc, if_true, hfelv] at hfiv
    exact ih2 xs hfiv
  · intro fst v rest hc ih xs hfiv
    rw [fiv_cons] at hfiv
    simp only [recurseVal, hc, if_false] at hfiv
    exact ih xs hfiv

/-- C4 (amended): for a mapping with no directly matching priority key,
`find_event_list` recurses into the values in iteration order and
returns the first recursion result that is not "not found" — a result
that may be an empty list. -/
theorem find_event_list_recursion_first_hit (fields : List (String × Json))
    (xs : List Json) (hmiss : keyHit fields = none) :
    find_event_list (Json.obj fields) = some xs ↔
      ∃ pre kv post, fields = pre ++ kv :: post ∧ recurseVal kv.2 = some xs ∧
        ∀ kv2 ∈ pre, recurseVal kv2.2 = none := by
  have hobj : find_event_list (Json.obj fields) = find_in_values fields := by
    simp only [find_event_list, hmiss]
  rw [hobj, fiv_findSome, List.findSome?_eq_some_iff]

/-- C4 counterexample to the claim as stated: on a mapping with no
priority key whose only value is the empty list, the recursion finds the
empty list and `find_event_list` returns it — the recursion returns the
first non-`None` result, not the first non-empty one. -/
theorem find_event_list_empty_from_recursion_cex :
    keyHit [("foo", Json.arr ([] : List Json))] = none ∧
    find_event_list (Json.obj [("foo", Json.arr [])]) = some [] := by
  exact ⟨rfl, by with_unfolding_all rfl⟩

theorem find_event_list_recursion_first_hit_witness :
    keyHit fieldsC4 = none ∧
    recurseVal (Json.num 1) = none ∧
    recurseVal (Json.obj [("events", Json.arr [Json.obj []])]) = some [Json.obj []] ∧
    find_event_list (Json.obj fieldsC4) = some [Json.obj []] :=
  ⟨rfl, rfl, by with_unfolding_all rfl,
   (find_event_list_recursion_first_hit fieldsC4 [Json.obj []] rfl).mpr
     ⟨[("alpha", Json.num 1)],
      ("beta", Json.obj [("events", Json.arr [Json.obj []])]), [], rfl,
      by with_unfolding_all rfl,
      fun kv2 h => by
        rcases List.mem_cons.mp h with rfl | h2
        · rfl
        · exact absurd h2 (List.not_mem_nil _)⟩⟩

/-- C5 (amended): every list returned by `find_event_list` is either
empty or has a mapping as its first element (only the first element is
ever inspected). -/
theorem find_event_list_head_is_mapping (j : Json) (xs : List Json)
    (h : find_event_list j = some xs) :
    xs = [] ∨ ∃ fields rest, xs = Json.obj fields :: rest := by
  have hev := fel_isEventList j xs h
  cases xs with
  | nil => exact Or.inl rfl
  | cons hd tl =>
      cases hd with
      | obj fields => exact Or.inr ⟨fields, tl, rfl⟩
      | null => simp [isEventList] at hev
      | bool b => simp [isEventList] at hev
      | num q => simp [isEventList] at hev
      | str s => simp [isEventList] at hev
      | arr ys => simp [isEventList] at hev

/-- C5 counterexample to the claim as stated: the locator checks only
the first element, so it happily returns a list whose second element is
a number, not a mapping. -/
theorem find_event_list_nonmapping_elem_cex :
    find_event_list (Json.arr [Json.obj [], Json.num 3]) =
      some [Json.obj [], Json.num 3] ∧
    [Json.obj [], Json.num 3] ≠ ([] : List Json) ∧
    Json.num 3 ∈ [Json.obj [], Json.num 3] ∧
    isObjJson (Json.num 3) = false := by
  refine ⟨by with_unfolding_all rfl, by simp, by simp, rfl⟩

theorem find_event_list_head_is_mapping_witness :
    find_event_list (Json.arr [Json.obj []]) = some [Json.obj []] ∧
    ([Json.obj []] = ([] : List Json) ∨
      ∃ fields rest, [Json.obj []] = Json.obj fields :: rest) :=
  ⟨by with_unfolding_all rfl,
   find_event_list_head_is_mapping (Json.arr [Json.obj []]) [Json.obj []]
     (by with_unfolding_all rfl)⟩

theorem lexRel_trans {a b c : ℚ × ℚ} (h1 : lexRel a b) (h2 : lexRel b c) : lexRel a c := by
  unfold lexRel at *
  rcases h1 with h1 | ⟨h1, h1'⟩ <;> rcases h2 with h2 | ⟨h2, h2'⟩
  · exact Or.inl (h1.trans h2)
  · exact Or.inl (h2 ▸ h1)
  · exact Or.inl (h1 ▸ h2)
  · exact Or.inr ⟨h1.trans h2, h1'.trans h2'⟩

theorem lexRel_total (a b : ℚ × ℚ) : lexRel a b ∨ lexRel b a := by
  unfold lexRel
  rcases lt_trichotomy a.1 b.1 with h | h | h
  · exact Or.inl (Or.inl h)
  · rcases le_total a.2 b.2 with h2 | h2
    · exact Or.inl (Or.inr ⟨h, h2⟩)
    · exact Or.inr (Or.inr ⟨h.symm, h2⟩)
  · exact Or.inr (Or.inl h)

theorem lexLE_iff {a b : ℚ × ℚ} : lexLE a b = true ↔ lexRel a b := by
  simp [lexLE, lexRel]

theorem mem_insertSorted {x a : ℚ × ℚ} {l : List (ℚ × ℚ)} :
    x ∈ insertSorted a l ↔ x = a ∨ x ∈ l := by
  rw [(insertSorted_perm a l).mem_iff]
  exact List.mem_cons

theorem pairwise_insertSorted {a : ℚ × ℚ} {l : List (ℚ × ℚ)}
    (hl : List.Pairwise lexRel l) : List.Pairwise lexRel (insertSorted a l) := by
  induction l with
  | nil => simp [insertSorted]
  | cons b m ih =>
      obtain ⟨hhead, htail⟩ := List.pairwise_cons.mp hl
      simp only [insertSorted]
      by_cases hab : lexLE a b
      · rw [if_pos hab]
        refine List.pairwise_cons.mpr ⟨?_, hl⟩
        intro q hq
        rcases List.mem_cons.mp hq with rfl | hq2
        · exact lexLE_iff.mp hab
        · exact lexRel_trans (lexLE_iff.mp hab) (hhead q hq2)
      · rw [if_neg hab]
        refine List.pairwise_cons.mpr ⟨?_, ih htail⟩
        intro q hq
        rcases mem_insertSorted.mp hq with rfl | hq2
        · rcases lexRel_total q b with h | h
          · exact absurd (lexLE_iff.mpr h) hab
          · exact h
        · exact hhead q hq2

theorem sorted_sortIntervals (l : List (ℚ × ℚ)) :
    List.Pairwise lexRel (sortIntervals l) := by
  induction l with
  | nil => exact List.Pairwise.nil
  | cons a m ih => exact pairwise_insertSorted ih

theorem sortIntervals_of_sorted {l : List (ℚ × ℚ)} (h : List.Pairwise lexRel l) :
    sortIntervals l = l := by
  induction l with
  | nil => rfl
  | cons a m ih =>
      obtain ⟨hhead, htail⟩ := List.pairwise_cons.mp h
      simp only [sortIntervals]
      rw [ih htail]
      cases m with
      | nil => rfl
      | cons b m2 =>
          simp only [insertSorted]
          rw [if_pos (lexLE_iff.mpr (hhead b (List.mem_cons_self _ _)))]

theorem coalesceGo_of_sep (eps : ℚ) :
    ∀ (l : List (ℚ × ℚ)) (acc : ℚ × ℚ),
      List.Chain' (fun a b : ℚ × ℚ => a.2 + eps < b.1) (acc :: l) →
      coalesceGo eps acc l = acc :: l := by
  intro l
  induction l with
  | nil => intro acc _; rfl
  | cons p rest ih =>
      intro acc hchain
      obtain ⟨s, e⟩ := p
      have h1 : acc.2 + eps < s := (List.chain'_cons.mp hchain).1
      simp only [coalesceGo]
      rw [if_neg (not_le.mpr h1)]
      rw [ih (s, e) (List.chain'_cons.mp hchain).2]

theorem coalesceGo_invariant (eps : ℚ) :
    ∀ (l : List (ℚ × ℚ)) (ps pe : ℚ),
      List.Pairwise lexRel l →
      (∀ p ∈ l, ps < p.1 ∨ (ps = p.1 ∧ pe ≤ p.2)) →
      ∃ pe2 tail,
        coalesceGo eps (ps, pe) l = (ps, pe2) :: tail ∧
        pe ≤ pe2 ∧
        List.Pairwise lexRel ((ps, pe2) :: tail) ∧
        List.Chain' (fun a b : ℚ × ℚ => a.2 + eps < b.1) ((ps, pe2) :: tail) := by
  intro l
  induction l with
  | nil =>
      intro ps pe _ _
      exact ⟨pe, [], rfl, le_refl pe, List.pairwise_singleton _ _, List.chain'_singleton _⟩
  | cons p rest ih =>
      intro ps pe hsorted hcond
      obtain ⟨s, e⟩ := p
      obtain ⟨hhead, htail⟩ := List.pairwise_cons.mp hsorted
      have hps : ps < s ∨ (ps = s ∧ pe ≤ e) := hcond (s, e) (List.mem_cons_self _ _)
      by_cases hm : s ≤ pe + eps
      · have hcond2 : ∀ q ∈ rest, ps < q.1 ∨ (ps = q.1 ∧ max pe e ≤ q.2) := by
          intro q hq
          rcases hcond q (List.mem_cons_of_mem _ hq) with h | ⟨heq, hpe⟩
          · exact Or.inl h
          · right
            refine ⟨heq, max_le hpe ?_⟩
            have hlex : lexRel (s, e) q := hhead q hq
            rcases hps with h1 | ⟨h1, _⟩
            · exfalso
              rcases hlex with h2 | ⟨h2, _⟩
              · rw [← heq] at h2
                exact lt_asymm h1 h2
              · rw [← heq] at h2
                exact lt_irrefl ps (h2 ▸ h1)
            · rcases hlex with h2 | ⟨h2, h3⟩
              · exfalso
                rw [← heq, ← h1] at h2
                exact absurd h2 (by simp)
              · exact h3
        obtain ⟨pe2, tail, heq2, hle2, hpair2, hchain2⟩ := ih ps (max pe e) htail hcond2
        refine ⟨pe2, tail, ?_, le_trans (le_max_left _ _) hle2, hpair2, hchain2⟩
        simp only [coalesceGo]
        rw [if_pos hm]
        exact heq2
      · push_neg at hm
        obtain ⟨e2, tail2, heq2, hle2, hpair2, hchain2⟩ :=
          ih s e htail (fun q hq => hhead q hq)
        refine ⟨pe, (s, e2) :: tail2, ?_, le_refl pe, ?_, ?_⟩
        · simp only [coalesceGo]
          rw [if_neg (not_le.mpr hm)]
          rw [heq2]
        · refine List.pairwise_cons.mpr ⟨?_, hpair2⟩
          intro q hq
          have hs_q : s ≤ q.1 ∧ (s = q.1 → e2 ≤ q.2) := by
            rcases List.mem_cons.mp hq with rfl | hq2
            · exact ⟨le_refl s, fun _ => le_refl e2⟩
            · have hlex : lexRel (s, e2) q := (List.pairwise_cons.mp hpair2).1 q hq2
              rcases hlex with h | ⟨h1, h2⟩
              · exact ⟨le_of_lt h, fun hh => absurd (hh ▸ h) (lt_irrefl _)⟩
              · exact ⟨le_of_eq h1, fun _ => h2⟩
          rcases hps with h1 | ⟨h1, h2⟩
          · exact Or.inl (lt_of_lt_of_le h1 hs_q.1)
          · rcases lt_or_eq_of_le hs_q.1 with h3 | h3
            · exact Or.inl (h1 ▸ h3)
            · exact Or.inr ⟨h1.trans h3, le_trans (le_trans h2 hle2) (hs_q.2 h3)⟩
        · exact List.chain'_cons.mpr ⟨hm, hchain2⟩

theorem chain_sep_pairwise (eps : ℚ) :
    ∀ l : List (ℚ × ℚ), List.Pairwise (fun a b : ℚ × ℚ => a.1 ≤ b.1) l →
      List.Chain' (fun a b : ℚ × ℚ => a.2 + eps < b.1) l →
      List.Pairwise (fun a b : ℚ × ℚ => a.2 + eps < b.1) l := by
  intro l
  induction l with
  | nil => intro _ _; exact List.Pairwise.nil
  | cons a m ih =>
      intro hp hc
      obtain ⟨hhead, htail⟩ := List.pairwise_cons.mp hp
      cases m with
      | nil => exact List.pairwise_singleton _ _
      | cons c m2 =>
          have hac : a.2 + eps < c.1 := (List.chain'_cons.mp hc).1
          refine List.pairwise_cons.mpr ⟨?_, ih htail (List.chain'_cons.mp hc).2⟩
          intro b hb
          rcases List.mem_cons.mp hb with rfl | hb2
          · exact hac
          · exact lt_of_lt_of_le hac ((List.pairwise_cons.mp htail).1 b hb2)

theorem coalesce_props (l : List (ℚ × ℚ)) (eps : ℚ) :
    List.Pairwise lexRel (coalesce_intervals l eps) ∧
    List.Chain' (fun a b : ℚ × ℚ => a.2 + eps < b.1) (coalesce_intervals l eps) := by
  unfold coalesce_intervals
  cases hs : sortIntervals l with
  | nil => exact ⟨List.Pairwise.nil, List.chain'_nil⟩
  | cons a m =>
      have hsorted : List.Pairwise lexRel (a :: m) := by
        rw [← hs]; exact sorted_sortIntervals l
      obtain ⟨hhead, htail⟩ := List.pairwise_cons.mp hsorted
      obtain ⟨pe2, tail, heq, _, hpair, hchain⟩ :=
        coalesceGo_invariant eps m a.1 a.2 htail (fun q hq => hhead q hq)
      rw [Prod.mk.eta] at heq
      dsimp only
      rw [heq]
      exact ⟨hpair, hchain⟩

/-- C3 (amended): every list of well-formed intervals (`start ≤ end`)
sorted by start with each start strictly beyond the previous end plus
`EPS` is a fixed point of `coalesce_intervals`; and coalescing is
idempotent on every input. -/
theorem coalesce_idempotent :
    (∀ l : List (ℚ × ℚ), (∀ p ∈ l, p.1 ≤ p.2) →
      List.Pairwise (fun a b : ℚ × ℚ => a.1 ≤ b.1) l →
      List.Chain' (fun a b : ℚ × ℚ => a.2 + EPS < b.1) l →
      coalesce_intervals l EPS = l) ∧
    (∀ l : List (ℚ × ℚ),
      coalesce_intervals (coalesce_intervals l EPS) EPS = coalesce_intervals l EPS) := by
  have hEPS : (0 : ℚ) < EPS := by norm_num [EPS]
  have key : ∀ (eps : ℚ) (l : List (ℚ × ℚ)), List.Pairwise lexRel l →
      List.Chain' (fun a b : ℚ × ℚ => a.2 + eps < b.1) l →
      coalesce_intervals l eps = l := by
    intro eps l hp hc
    unfold coalesce_intervals
    rw [sortIntervals_of_sorted hp]
    cases l with
    | nil => rfl
    | cons a m => exact coalesceGo_of_sep eps m a hc
  constructor
  · intro l hwf hsort hchain
    refine key EPS l ?_ hchain
    have hpair := chain_sep_pairwise EPS l hsort hchain
    refine hpair.imp_of_mem ?_
    intro a b ha hb h
    exact Or.inl (by have := hwf a ha; linarith)
  · intro l
    cases hl : coalesce_intervals l EPS with
    | nil => rfl
    | cons a m =>
        obtain ⟨hp, hc⟩ := coalesce_props l EPS
        rw [hl] at hp hc
        rw [← hl]
        exact key EPS (coalesce_intervals l EPS) (hl ▸ hp) (hl ▸ hc)

/-- C3 counterexample to the claim as stated: a list of degenerate
intervals (`end < start`) that is sorted by start with each start beyond
the previous end plus `EPS`, yet is reordered by coalescing, which sorts
by the full `(start, end)` key. -/
theorem coalesce_fixed_point_cex :
    List.Pairwise (fun a b : ℚ × ℚ => a.1 ≤ b.1) listC ∧
    List.Chain' (fun a b : ℚ × ℚ => a.2 + EPS < b.1) listC ∧
    coalesce_intervals listC EPS = [(0, -7), (0, -5)] ∧
    coalesce_intervals listC EPS ≠ listC := by
  refine ⟨?_, ?_, ?_, ?_⟩
  · refine List.Pairwise.cons ?_ (List.pairwise_singleton _ _)
    intro b hb
    rcases List.mem_cons.mp hb with rfl | hb2
    · norm_num
    · simp at hb2
  · refine List.chain'_cons.mpr ⟨by norm_num [EPS], List.chain'_singleton _⟩
  · with_unfolding_all decide
  · with_unfolding_all decide

theorem coalesce_idempotent_witness :
    coalesce_intervals listD EPS = listD ∧
    coalesce_intervals (coalesce_intervals listD EPS) EPS = coalesce_intervals listD EPS :=
  ⟨coalesce_idempotent.1 listD (by with_unfolding_all decide)
    (by with_unfolding_all decide)
    (List.chain'_cons.mpr ⟨by norm_num [listD, EPS], List.chain'_singleton _⟩),
   coalesce_idempotent.2 listD⟩

theorem iccUnion_measurable (l : List (ℚ × ℚ)) : MeasurableSet (iccUnion l) := by
  induction l with
  | nil => exact MeasurableSet.empty
  | cons p rest ih => exact measurableSet_Icc.union ih

theorem mem_iccUnion {x : ℝ} {l : List (ℚ × ℚ)} :
    x ∈ iccUnion l ↔ ∃ p ∈ l, (p.1 : ℝ) ≤ x ∧ x ≤ (p.2 : ℝ) := by
  induction l with
  | nil => simp [iccUnion]
  | cons p rest ih =>
      simp only [iccUnion, Set.mem_union, Set.mem_Icc, ih, List.mem_cons]
      constructor
      · rintro (⟨h1, h2⟩ | ⟨q, hq, h1, h2⟩)
        · exact ⟨p, Or.inl rfl, h1, h2⟩
        · exact ⟨q, Or.inr hq, h1, h2⟩
      · rintro ⟨q, hq | hq, h1, h2⟩
        · exact Or.inl (hq ▸ ⟨h1, h2⟩)
        · exact Or.inr ⟨q, hq, h1, h2⟩

theorem iccUnion_perm {l1 l2 : List (ℚ × ℚ)} (h : l1.Perm l2) :
    iccUnion l1 = iccUnion l2 := by
  induction h with
  | nil => rfl
  | cons x _ ih => simp only [iccUnion, ih]
  | swap x y l =>
      show Set.Icc _ _ ∪ (Set.Icc _ _ ∪ iccUnion l) =
        Set.Icc _ _ ∪ (Set.Icc _ _ ∪ iccUnion l)
      rw [← Set.union_assoc, Set.union_comm (Set.Icc _ _) (Set.Icc _ _), Set.union_assoc]
  | trans _ _ ih1 ih2 => exact ih1.trans ih2

theorem sumLengths_nonneg {l : List (ℚ × ℚ)} (h : ∀ p ∈ l, p.1 ≤ p.2) :
    0 ≤ sumLengths l := by
  induction l with
  | nil => simp [sumLengths]
  | cons p rest ih =>
      have h1 := h p (List.mem_cons_self _ _)
      have h2 := ih (fun q hq => h q (List.mem_cons_of_mem _ hq))
      simp only [sumLengths, List.map_cons, List.sum_cons] at h2 ⊢
      linarith

theorem volume_iccUnion :
    ∀ l : List (ℚ × ℚ), (∀ p ∈ l, p.1 ≤ p.2) →
      List.Pairwise (fun a b : ℚ × ℚ => a.2 < b.1) l →
      MeasureTheory.volume (iccUnion l) = ENNReal.ofReal ((sumLengths l : ℚ) : ℝ) := by
  intro l
  induction l with
  | nil =>
      intro _ _
      show MeasureTheory.volume (∅ : Set ℝ) = _
      simp [sumLengths]
  | cons p rest ih =>
      intro hwf hpair
      obtain ⟨hhead, htail⟩ := List.pairwise_cons.mp hpair
      have hdisj : Disjoint (Set.Icc (p.1 : ℝ) (p.2 : ℝ)) (iccUnion rest) := by
        rw [Set.disjoint_left]
        intro x hx hx2
        obtain ⟨q, hq, hq1, hq2⟩ := mem_iccUnion.mp hx2
        have hlt : (p.2 : ℝ) < (q.1 : ℝ) := by exact_mod_cast hhead q hq
        exact lt_irrefl x (lt_of_le_of_lt hx.2 (lt_of_lt_of_le hlt hq1))
      show MeasureTheory.volume (Set.Icc ((p.1 : ℚ) : ℝ) ((p.2 : ℚ) : ℝ) ∪ iccUnion rest) = _
      rw [MeasureTheory.measure_union hdisj (iccUnion_measurable rest)]
      rw [Real.volume_Icc, ih (fun q hq => hwf q (List.mem_cons_of_mem _ hq)) htail]
      have h1 : (0 : ℝ) ≤ (p.2 : ℝ) - (p.1 : ℝ) := by
        have := hwf p (List.mem_cons_self _ _)
        have : (p.1 : ℝ) ≤ (p.2 : ℝ) := by exact_mod_cast this
        linarith
      have h2 : (0 : ℝ) ≤ ((sumLengths rest : ℚ) : ℝ) := by
        exact_mod_cast sumLengths_nonneg (fun q hq => hwf q (List.mem_cons_of_mem _ hq))
      rw [← ENNReal.ofReal_add h1 h2]
      congr 1
      have hsum : sumLengths (p :: rest) = (p.2 - p.1) + sumLengths rest := by
        simp [sumLengths]
      rw [hsum]
      push_cast
      ring

theorem coalesceGo_union (eps : ℚ) (l0 : List (ℚ × ℚ))
    (hsep : ∀ p ∈ l0, ∀ q ∈ l0, q.1 ≤ p.2 ∨ p.2 + eps < q.1)
    (hwf0 : ∀ p ∈ l0, p.1 ≤ p.2) :
    ∀ l : List (ℚ × ℚ), (∀ p ∈ l, p ∈ l0) →
      List.Pairwise (fun a b : ℚ × ℚ => a.1 ≤ b.1) l →
      ∀ ps pe : ℚ, (∀ p ∈ l, ps ≤ p.1) → ps ≤ pe → (∃ j ∈ l0, pe = j.2) →
      iccUnion (coalesceGo eps (ps, pe) l) =
        Set.Icc (ps : ℝ) (pe : ℝ) ∪ iccUnion l := by
  intro l
  induction l with
  | nil =>
      intro _ _ ps pe _ _ _
      show Set.Icc _ _ ∪ ∅ = Set.Icc _ _ ∪ ∅
      rfl
  | cons p rest ih =>
      intro hsub hpairs ps pe hstarts hwf_acc hpe_end
      obtain ⟨s, e⟩ := p
      obtain ⟨hhead, htail⟩ := List.pairwise_cons.mp hpairs
      have hmem0 : (s, e) ∈ l0 := hsub (s, e) (List.mem_cons_self _ _)
      have hse : s ≤ e := hwf0 (s, e) hmem0
      have hps_s : ps ≤ s := hstarts (s, e) (List.mem_cons_self _ _)
      by_cases hm : s ≤ pe + eps
      · obtain ⟨j, hj, hpej⟩ := hpe_end
        have hs_pe : s ≤ pe := by
          rcases hsep j hj (s, e) hmem0 with h | h
          · rw [hpej]
            exact h
          · exfalso
            rw [← hpej] at h
            dsimp only at h
            linarith
        have hnew_end : ∃ j2 ∈ l0, max pe e = j2.2 := by
          rcases le_total pe e with h | h
          · exact ⟨(s, e), hmem0, max_eq_right h⟩
          · exact ⟨j, hj, by rw [max_eq_left h]; exact hpej⟩
        have ihres := ih (fun q hq => hsub q (List.mem_cons_of_mem _ hq)) htail
          ps (max pe e) (fun q hq => hstarts q (List.mem_cons_of_mem _ hq))
          (le_trans hwf_acc (le_max_left _ _)) hnew_end
        rw [show coalesceGo eps (ps, pe) ((s, e) :: rest) =
            coalesceGo eps (ps, max pe e) rest from by
          simp only [coalesceGo]; rw [if_pos hm]]
        rw [ihres]
        have hIcc : Set.Icc (ps : ℝ) (((max pe e : ℚ)) : ℝ) =
            Set.Icc (ps : ℝ) (pe : ℝ) ∪ Set.Icc (s : ℝ) (e : ℝ) := by
          have c1 : (ps : ℝ) ≤ (s : ℝ) := by exact_mod_cast hps_s
          have c2 : (s : ℝ) ≤ (pe : ℝ) := by exact_mod_cast hs_pe
          have c3 : (s : ℝ) ≤ (e : ℝ) := by exact_mod_cast hse
          rw [Rat.cast_max]
          ext x
          simp only [Set.mem_Icc, Set.mem_union, le_max_iff]
          constructor
          · rintro ⟨hx1, hx2⟩
            rcases le_total x (pe : ℝ) with h | h
            · exact Or.inl ⟨hx1, h⟩
            · rcases hx2 with h2 | h2
              · exact Or.inl ⟨hx1, h2⟩
              · exact Or.inr ⟨le_trans c2 h, h2⟩
          · rintro (⟨hx1, hx2⟩ | ⟨hx1, hx2⟩)
            · exact ⟨hx1, Or.inl hx2⟩
            · exact ⟨le_trans c1 hx1, Or.inr hx2⟩
        rw [hIcc, Set.union_assoc]
        rfl
      · push_neg at hm
        have ihres := ih (fun q hq => hsub q (List.mem_cons_of_mem _ hq)) htail s e
          (fun q hq => hhead q hq) hse ⟨(s, e), hmem0, rfl⟩
        rw [show coalesceGo eps (ps, pe) ((s, e) :: rest) =
            (ps, pe) :: coalesceGo eps (s, e) rest from by
          simp only [coalesceGo]; rw [if_neg (not_le.mpr hm)]]
        show Set.Icc (ps : ℝ) (pe : ℝ) ∪ iccUnion (coalesceGo eps (s, e) rest) = _
        rw [ihres]
        rfl

theorem coalesce_union (l : List (ℚ × ℚ)) (eps : ℚ)
    (hsep : ∀ p ∈ l, ∀ q ∈ l, q.1 ≤ p.2 ∨ p.2 + eps < q.1)
    (hwf : ∀ p ∈ l, p.1 ≤ p.2) :
    iccUnion (coalesce_intervals l eps) = iccUnion l := by
  unfold coalesce_intervals
  cases hs : sortIntervals l with
  | nil =>
      have hperm := sortIntervals_perm l
      rw [hs] at hperm
      have : l = [] := List.Perm.nil_eq hperm |>.symm
      rw [this]
  | cons a m =>
      have hperm := sortIntervals_perm l
      rw [hs] at hperm
      have hsorted : List.Pairwise lexRel (a :: m) := by
        rw [← hs]; exact sorted_sortIntervals l
      have hstartle : List.Pairwise (fun x y : ℚ × ℚ => x.1 ≤ y.1) (a :: m) :=
        hsorted.imp (fun h => by
          rcases h with h | ⟨h, _⟩
          · exact le_of_lt h
          · exact le_of_eq h)
      have hamem : a ∈ l := hperm.mem_iff.mp (List.mem_cons_self _ _)
      have hgo := coalesceGo_union eps l hsep hwf m
        (fun q hq => hperm.mem_iff.mp (List.mem_cons_of_mem _ hq))
        (List.pairwise_cons.mp hstartle).2
        a.1 a.2 (fun q hq => (List.pairwise_cons.mp hstartle).1 q hq)
        (hwf a hamem) ⟨a, hamem, rfl⟩
      rw [Prod.mk.eta] at hgo
      dsimp only
      rw [hgo]
      exact iccUnion_perm hperm

/-- C2 (amended): the coalesced output is always sorted by start and
pairwise-disjoint beyond the `EPS` tolerance; when moreover every input
interval is well-formed and no two input intervals are separated by a
positive gap of at most `EPS`, the total covered measure of the output
equals the Lebesgue measure of the union of the input intervals. -/
theorem coalesce_sorted_disjoint_measure (l : List (ℚ × ℚ)) :
    List.Pairwise (fun a b : ℚ × ℚ => a.1 ≤ b.1) (coalesce_intervals l EPS) ∧
    List.Pairwise (fun a b : ℚ × ℚ => a.2 + EPS < b.1) (coalesce_intervals l EPS) ∧
    ((∀ p ∈ l, p.1 ≤ p.2) →
      (∀ p ∈ l, ∀ q ∈ l, q.1 ≤ p.2 ∨ p.2 + EPS < q.1) →
      ENNReal.ofReal ((sumLengths (coalesce_intervals l EPS) : ℚ) : ℝ) =
        MeasureTheory.volume (iccUnion l)) := by
  obtain ⟨hp, hc⟩ := coalesce_props l EPS
  have hstart : List.Pairwise (fun a b : ℚ × ℚ => a.1 ≤ b.1) (coalesce_intervals l EPS) :=
    hp.imp (fun h => by
      rcases h with h | ⟨h, _⟩
      · exact le_of_lt h
      · exact le_of_eq h)
  have hEPS : (0 : ℚ) < EPS := by norm_num [EPS]
  refine ⟨hstart, chain_sep_pairwise EPS _ hstart hc, ?_⟩
  intro hwf hsep
  have hwf2 : ∀ p ∈ coalesce_intervals l EPS, p.1 ≤ p.2 := wf_coalesce EPS hwf
  have hsepout : List.Pairwise (fun a b : ℚ × ℚ => a.2 < b.1) (coalesce_intervals l EPS) :=
    (chain_sep_pairwise EPS _ hstart hc).imp (fun h => by linarith)
  rw [← coalesce_union l EPS hsep hwf]
  exact (volume_iccUnion _ hwf2 hsepout).symm

/-- C2 counterexample to the claim as stated: the measure equality
fails in general. Coalescing `[(0,1), (1 + 10⁻¹⁰, 2)]` bridges the
positive gap of `10⁻¹⁰ < EPS`, covering more than the union; and for the
degenerate `[(5,3), (10,20)]` the summed lengths undercount the union. -/
theorem coalesce_measure_cex :
    ENNReal.ofReal ((sumLengths (coalesce_intervals listA EPS) : ℚ) : ℝ) ≠
      MeasureTheory.volume (iccUnion listA) ∧
    ENNReal.ofReal ((sumLengths (coalesce_intervals listB EPS) : ℚ) : ℝ) ≠
      MeasureTheory.volume (iccUnion listB) := by
  constructor
  · have h1 : coalesce_intervals listA EPS = [(0, 2)] := by with_unfolding_all decide
    have h3 : MeasureTheory.volume (iccUnion listA) =
        ENNReal.ofReal ((sumLengths listA : ℚ) : ℝ) :=
      volume_iccUnion listA (by with_unfolding_all decide) (by with_unfolding_all decide)
    rw [h1, h3]
    intro hcontra
    rw [ENNReal.ofReal_eq_ofReal_iff
      (by norm_num [sumLengths])
      (by norm_num [sumLengths, listA, EPS])] at hcontra
    have hq : sumLengths [((0 : ℚ), (2 : ℚ))] = sumLengths listA := by
      exact_mod_cast hcontra
    norm_num [sumLengths, listA] at hq
  · have h1 : coalesce_intervals listB EPS = [(5, 3), (10, 20)] := by
      with_unfolding_all decide
    have h2 : MeasureTheory.volume (iccUnion listB) = ENNReal.ofReal 10 := by
      show MeasureTheory.volume
        (Set.Icc ((5 : ℚ) : ℝ) ((3 : ℚ) : ℝ) ∪
          (Set.Icc ((10 : ℚ) : ℝ) ((20 : ℚ) : ℝ) ∪ ∅)) = _
      rw [Set.union_empty, Set.Icc_eq_empty (by norm_num), Set.empty_union,
        Real.volume_Icc]
      norm_num
    rw [h1, h2]
    intro hcontra
    rw [ENNReal.ofReal_eq_ofReal_iff (by norm_num [sumLengths]) (by norm_num)] at hcontra
    norm_num [sumLengths] at hcontra

theorem coalesce_sorted_disjoint_measure_witness :
    ENNReal.ofReal ((sumLengths (coalesce_intervals listD EPS) : ℚ) : ℝ) =
      MeasureTheory.volume (iccUnion listD) :=
  (coalesce_sorted_disjoint_measure listD).2.2 (by with_unfolding_all decide)
    (by with_unfolding_all decide)
